import Mathlib

/-!
# Verification of jpg2pdf (src/jpg2pdf.py)

Shallow embedding of the core logic of `jpg2pdf.py`:

* the page geometry constants and the image page-layout arithmetic of
  `images_to_pdf` (modelled over `ℚ`; the Python source computes with
  IEEE doubles, but every constant involved — 612, 792, 54, 504, 684 —
  is exactly representable and the claims under scrutiny are about the
  exact arithmetic of the algorithm);
* the assembly/merge order of `main` (README part first, image part second);
* the HTML tree walk `_node_to_story` together with its inner helper
  `inline_text` and `_escape`, over an inductive tree type mirroring the
  BeautifulSoup node structure (a node is either a bare string or a tag
  with a name, attributes and ordered children).
-/

namespace Jpg2pdf

/-! ## Page geometry (src/jpg2pdf.py lines 32-35) -/

/-- `PAGE_W, PAGE_H = letter` — US letter is 612 x 792 points. -/
def PAGE_W : ℚ := 612

/-- Page height of US letter in points. -/
def PAGE_H : ℚ := 792

/-- `MARGIN = 0.75 * inch` with `inch = 72`, i.e. 54 points. -/
def MARGIN : ℚ := (3/4) * 72

/-- `CONTENT_W = PAGE_W - 2 * MARGIN` (504 points). -/
def CONTENT_W : ℚ := PAGE_W - 2 * MARGIN

/-- `CONTENT_H = PAGE_H - 2 * MARGIN` (684 points). -/
def CONTENT_H : ℚ := PAGE_H - 2 * MARGIN

/-! ## Image page layout (src/jpg2pdf.py lines 217-228) -/

/-- The placement computed for one image page: display size and the
page-space origin handed to `canvas.drawImage`. -/
structure Placement where
  display_w : ℚ
  display_h : ℚ
  x : ℚ
  y : ℚ
  deriving Repr, DecidableEq

/-- The per-image layout arithmetic of `images_to_pdf`
(src/jpg2pdf.py lines 217-228):

    aspect = img_h_px / img_w_px
    display_w = CONTENT_W
    display_h = display_w * aspect
    if display_h > CONTENT_H:
        display_h = CONTENT_H
        display_w = display_h / aspect
    x = MARGIN + (CONTENT_W - display_w) / 2
    y = PAGE_H - MARGIN - display_h
-/
def layoutImage (w h : ℚ) : Placement :=
  let aspect := h / w
  let display_w := CONTENT_W
  let display_h := display_w * aspect
  if display_h > CONTENT_H then
    let display_h2 := CONTENT_H
    let display_w2 := display_h2 / aspect
    { display_w := display_w2
      display_h := display_h2
      x := MARGIN + (CONTENT_W - display_w2) / 2
      y := PAGE_H - MARGIN - display_h2 }
  else
    { display_w := display_w
      display_h := display_h
      x := MARGIN + (CONTENT_W - display_w) / 2
      y := PAGE_H - MARGIN - display_h }

/-! ## images_to_pdf page loop and main's assembly
(src/jpg2pdf.py lines 201-239 and 270-298) -/

/-- The page loop of `images_to_pdf` (lines 208-233): for each image, decode
its pixel size; a zero-width or zero-height image is skipped (the source also
prints a warning, an effect not modelled); every other image produces exactly
one page placed by the layout arithmetic. -/
def imagePages : List (ℕ × ℕ) → List Placement
  | [] => []
  | (w, h) :: rest =>
    if w = 0 ∨ h = 0 then imagePages rest
    else layoutImage (w : ℚ) (h : ℚ) :: imagePages rest

/-- The result of `images_to_pdf` (lines 235-239): if no image was written
(`written == 0`, i.e. every image was degenerate) the function returns the
empty byte string `b""`, modelled as `none`; otherwise the saved canvas,
modelled as the list of its pages. -/
def imagesToPdf (dims : List (ℕ × ℕ)) : Option (List Placement) :=
  let pages := imagePages dims
  if pages.isEmpty then none else some pages

/-- The merged output of `main` (lines 270-298), given whether `README.md`
exists, the pages of `markdown_to_pdf(readme)`, and the result of
`images_to_pdf`. The `parts` list gets the README part first (when the README
exists) and the image part second, only when `images_to_pdf` returned a
non-empty byte string (`if images_pdf:`); the `PdfWriter` loop then appends
the pages of each part in order, which `flatten` models. -/
def mainMerged {α : Type} (readmeExists : Bool) (readmePages : List α)
    (imagesPdf : Option (List α)) : List α :=
  ((if readmeExists then [readmePages] else []) ++
   (match imagesPdf with
    | none => []
    | some ps => [ps])).flatten

/-! ## The parsed HTML tree

`markdown.markdown` produces HTML which BeautifulSoup parses into a tree
whose nodes are either `NavigableString`s (bare text) or `Tag`s with a name,
attributes and ordered children.  `Node` mirrors that shape. -/

/-- A BeautifulSoup node: bare text or a tag with name, attributes
(`child.get(key, default)` reads them) and ordered children. -/
inductive Node where
  | text (s : String)
  | tag (name : String) (attrs : List (String × String)) (children : List Node)
  deriving Repr

/-- Per-character action of `_escape` (src/jpg2pdf.py lines 68-74). -/
def escChar (c : Char) : List Char :=
  if c = '&' then ['&', 'a', 'm', 'p', ';']
  else if c = '<' then ['&', 'l', 't', ';']
  else if c = '>' then ['&', 'g', 't', ';']
  else [c]

/-- `_escape` on the character list.  The source chains
`replace("&","&amp;")`, then `replace("<","&lt;")`, then
`replace(">","&gt;")`; since no replacement output contains a character the
later passes replace (`"&amp;"` has no `<` or `>`, `"&lt;"`/`"&gt;"` are
produced after the `&` pass and never re-scanned), the chain equals this
single character-wise pass. -/
def escapeL (l : List Char) : List Char := l.flatMap escChar

/-- `_escape` (src/jpg2pdf.py lines 68-74). -/
def escape (s : String) : String := ⟨escapeL s.data⟩

/-- Python's `str.strip()` : drop whitespace from both ends. -/
def pyStrip (s : String) : String :=
  ⟨((s.data.dropWhile Char.isWhitespace).reverse.dropWhile
      Char.isWhitespace).reverse⟩

mutual

/-- BeautifulSoup's `get_text()`: all descendant strings concatenated in
document order. -/
def getText : Node → String
  | .text s => s
  | .tag _ _ cs => getTextList cs

/-- `get_text` over a child list. -/
def getTextList : List Node → String
  | [] => ""
  | c :: rest => getText c ++ getTextList rest

end

mutual

/-- The strings of all `NavigableString` descendants in document order. -/
def stringsOf : Node → List String
  | .text s => [s]
  | .tag _ _ cs => stringsOfList cs

/-- `stringsOf` over a child list. -/
def stringsOfList : List Node → List String
  | [] => []
  | c :: rest => stringsOf c ++ stringsOfList rest

end

/-- BeautifulSoup's `get_text(strip=True)`: each descendant string stripped,
then joined (empty separator; stripped-empty strings contribute nothing to
the join either way). -/
def getTextStrip (n : Node) : String :=
  String.join ((stringsOf n).map pyStrip)

/-- `child.get("href", "")`: attribute lookup with a default. -/
def attrGet (n : Node) (key dflt : String) : String :=
  match n with
  | .text _ => dflt
  | .tag _ attrs _ => (attrs.lookup key).getD dflt

/-! ## The inline composer `inline_text` (src/jpg2pdf.py lines 86-110) -/

mutual

/-- The body of the `for child in el.children` loop of `inline_text`
(lines 92-109): the string contributed by one child.  A `NavigableString`
is escaped; `strong`/`b`, `em`/`i`, `code` and `a` wrap the child's
*flattened* `get_text()` (escaped) in a single span; `br` contributes the
hard break marker; any other tag is recursively composed
(`inline_text(child)` on a tag iterates over that tag's children, which is
`inlineParts` of them). -/
def childPart : Node → String
  | .text s => escape s
  | .tag name attrs cs =>
    if name = "strong" ∨ name = "b" then
      "<b>" ++ escape (getTextList cs) ++ "</b>"
    else if name = "em" ∨ name = "i" then
      "<i>" ++ escape (getTextList cs) ++ "</i>"
    else if name = "code" then
      "<font name='Courier'>" ++ escape (getTextList cs) ++ "</font>"
    else if name = "a" then
      "<link href=\"" ++ (attrs.lookup "href").getD "" ++ "\" color=\"blue\">"
        ++ escape (getTextList cs) ++ "</link>"
    else if name = "br" then
      "<br/>"
    else
      inlineParts cs

/-- The `parts` accumulation of `inline_text` over a child list, joined. -/
def inlineParts : List Node → String
  | [] => ""
  | c :: rest => childPart c ++ inlineParts rest

end

/-- `inline_text` (src/jpg2pdf.py lines 86-110): a `NavigableString` is
escaped, a tag composes its children. -/
def inline_text : Node → String
  | .text s => escape s
  | .tag _ _ cs => inlineParts cs

/-! ## Escaping discipline

`ampOk l` states that every `&` in `l` is immediately followed by `amp;`,
`lt;` or `gt;` — i.e. every markup-significant `&` is an escape sequence,
never a raw source character.  The escape pass also removes every raw `<`
and `>` from source text. -/

/-- Every `&` is immediately followed by one of the three escape bodies. -/
def ampOk : List Char → Bool
  | [] => true
  | c :: rest =>
    (c != '&' || ("amp;".data.isPrefixOf rest || "lt;".data.isPrefixOf rest
      || "gt;".data.isPrefixOf rest)) && ampOk rest

/-- No raw `<` or `>` anywhere. -/
def noLtGt (l : List Char) : Bool :=
  l.all (fun c => c != '<' && c != '>')

mutual

/-- All attribute values in the tree are free of `&`. -/
def attrsAmpFree : Node → Bool
  | .text _ => true
  | .tag _ attrs cs =>
    attrs.all (fun p => p.2.data.all (fun c => c != '&')) && attrsAmpFreeList cs

/-- `attrsAmpFree` over a child list. -/
def attrsAmpFreeList : List Node → Bool
  | [] => true
  | c :: rest => attrsAmpFree c && attrsAmpFreeList rest

end

/-! ## The block translator `_node_to_story` (src/jpg2pdf.py lines 77-167) -/

/-- One reportlab story element appended by `_node_to_story`: a `Paragraph`
with a named style, an `HRFlowable`, or a `Preformatted` block. -/
inductive Block where
  | paragraph (style : String) (text : String)
  | hrflow
  | preformatted (text : String)
  deriving Repr, DecidableEq

/-- The style names defined by `_rl_styles` (lines 50-65); the heading
dispatch tests `tag[:2] in styles`. -/
def stylesKeys : List String :=
  ["h1", "h2", "h3", "h4", "p", "li", "code", "blockquote", "normal"]

/-- `level = tag[:2] if tag[:2] in styles else "h4"` (line 113). -/
def headingStyle (t : String) : String :=
  if t.take 2 ∈ stylesKeys then t.take 2 else "h4"

/-- BeautifulSoup's `node.find(t)` over a child list: the first descendant
tag named `t` in pre-order (depth before breadth). -/
def findTagIn (t : String) : List Node → Option Node
  | [] => none
  | .text _ :: rest => findTagIn t rest
  | .tag name attrs cs :: rest =>
    if name = t then some (.tag name attrs cs)
    else
      match findTagIn t cs with
      | some r => some r
      | none => findTagIn t rest

/-- BeautifulSoup's `node.find_all(ts)` over a child list: every descendant
tag whose name is in `ts`, in pre-order, descending into matches too. -/
def findAllIn (ts : List String) : List Node → List Node
  | [] => []
  | .text _ :: rest => findAllIn ts rest
  | .tag name attrs cs :: rest =>
    (if name ∈ ts then [Node.tag name attrs cs] else [])
      ++ findAllIn ts cs ++ findAllIn ts rest

/-- `node.find_all(ts)` on a node (searches the node's descendants). -/
def findAllOf (ts : List String) : Node → List Node
  | .text _ => []
  | .tag _ _ cs => findAllIn ts cs

/-- The blockquote loop (lines 150-155): each child whose composed text is
non-empty after stripping becomes its own blockquote paragraph.  (bs4 gives
`NavigableString`s a `name` of `None`, so the `hasattr(child, "name")`
filter passes string children through as well; `inline_text` escapes them.) -/
def quoteLoop (story : List Block) : List Node → List Block
  | [] => story
  | c :: rest =>
    quoteLoop
      (if pyStrip (inline_text c) ≠ "" then
        story ++ [.paragraph "blockquote" (inline_text c)]
      else story) rest

/-- One table row (lines 159-162): header/data cell texts, stripped and
escaped, joined with the fixed separator. -/
def tableRowBlock (row : Node) : Block :=
  .paragraph "p" (String.intercalate "  |  "
    ((findAllOf ["th", "td"] row).map (fun cell => escape (getTextStrip cell))))

/-- The table loop (lines 157-162): one paragraph-styled block per `tr`. -/
def tableLoop (story : List Block) : List Node → List Block
  | [] => story
  | row :: rest => tableLoop (story ++ [tableRowBlock row]) rest

mutual

/-- `_node_to_story` (lines 77-167).  `parent` is the name of the node's
parent (`none` for a detached node; the document root has name
`[document]`), `story` the accumulator list the Python version mutates in
place. -/
def nodeToStory (parent : Option String) (depth : ℕ) (story : List Block)
    (n : Node) : List Block :=
  match n with
  | .text _ => story
  | .tag t attrs cs =>
    if t = "h1" ∨ t = "h2" ∨ t = "h3" ∨ t = "h4" ∨ t = "h5" ∨ t = "h6" then
      story ++ [.paragraph (headingStyle t) (inline_text (.tag t attrs cs))]
    else if t = "p" then
      if pyStrip (inline_text (.tag t attrs cs)) ≠ "" then
        story ++ [.paragraph "p" (inline_text (.tag t attrs cs))]
      else story
    else if t = "hr" then
      story ++ [.hrflow]
    else if t = "ul" ∨ t = "ol" then
      listLoop t depth 0 story cs
    else if t = "li" then
      story ++ [.paragraph "li" ("•  " ++ inline_text (.tag t attrs cs))]
    else if t = "pre" then
      story ++ [.preformatted
        (match findTagIn "code" cs with
         | some codeEl => getText codeEl
         | none => getText (.tag t attrs cs))]
    else if t = "code" ∧ parent.isSome ∧ parent ≠ some "pre" then
      story ++ [.paragraph "p"
        ("<font name='Courier'>" ++ escape (getText (.tag t attrs cs))
          ++ "</font>")]
    else if t = "blockquote" then
      quoteLoop story cs
    else if t = "table" then
      tableLoop story (findAllIn ["tr"] cs)
    else
      childLoop t depth story cs

/-- The `for i, child in enumerate(node.children)` loop of the `ul`/`ol`
case (lines 126-134): `i` counts *every* child (text nodes included); only
`li` children emit a block, bulleted `•` for `ul` and `f"{i}."` for `ol`;
nested lists inside the item are translated right after it. -/
def listLoop (t : String) (depth i : ℕ) (story : List Block) :
    List Node → List Block
  | [] => story
  | .text _ :: rest => listLoop t depth (i + 1) story rest
  | .tag name nattrs ccs :: rest =>
    if name = "li" then
      listLoop t depth (i + 1)
        (nestedLoop depth
          (story ++ [.paragraph "li"
            ((if t = "ul" then "•" else toString i ++ ".") ++ "  "
              ++ inline_text (.tag name nattrs ccs))])
          ccs) rest
    else
      listLoop t depth (i + 1) story rest

/-- The `for sub in child.children` scan for nested lists (lines 132-134):
each `ul`/`ol` child of the item is translated with increased depth. -/
def nestedLoop (depth : ℕ) (story : List Block) : List Node → List Block
  | [] => story
  | .text _ :: rest => nestedLoop depth story rest
  | .tag name nattrs scs :: rest =>
    if name = "ul" ∨ name = "ol" then
      nestedLoop depth
        (nodeToStory (some "li") (depth + 1) story (.tag name nattrs scs)) rest
    else
      nestedLoop depth story rest

/-- The fallback recursion into unknown/container tags (lines 164-167). -/
def childLoop (t : String) (depth : ℕ) (story : List Block) :
    List Node → List Block
  | [] => story
  | c :: rest => childLoop t depth (nodeToStory (some t) depth story c) rest

end

end Jpg2pdf

namespace Jpg2pdf

/-- **C1.** For every image with pixel width `W > 0` and height `H > 0`:
if `H/W ≤ CONTENT_H/CONTENT_W` the layout sets the display width to the
content width (504) exactly and the display height to `504 * (H/W)`;
otherwise it sets the display height to the content height (684) exactly
and the display width to `684 / (H/W)`. -/
theorem c1_fit_to_box (w h : ℚ) (hw : 0 < w) (hh : 0 < h) :
    (h / w ≤ CONTENT_H / CONTENT_W →
      (layoutImage w h).display_w = CONTENT_W ∧ CONTENT_W = 504 ∧
      (layoutImage w h).display_h = CONTENT_W * (h / w)) ∧
    (CONTENT_H / CONTENT_W < h / w →
      (layoutImage w h).display_h = CONTENT_H ∧ CONTENT_H = 684 ∧
      (layoutImage w h).display_w = CONTENT_H / (h / w)) := by
  have hCW : CONTENT_W = 504 := by norm_num [CONTENT_W, PAGE_W, MARGIN]
  have hCH : CONTENT_H = 684 := by norm_num [CONTENT_H, PAGE_H, MARGIN]
  constructor
  · intro hle
    rw [hCW, hCH] at hle
    have hcond : ¬ (CONTENT_W * (h / w) > CONTENT_H) := by
      rw [hCW, hCH]; push_neg; linarith
    simp only [layoutImage]
    rw [if_neg hcond]
    exact ⟨rfl, hCW, rfl⟩
  · intro hlt
    rw [hCW, hCH] at hlt
    have hcond : CONTENT_W * (h / w) > CONTENT_H := by
      rw [hCW, hCH]; linarith
    simp only [layoutImage]
    rw [if_pos hcond]
    exact ⟨rfl, hCH, rfl⟩

/-- Witness for C1 at the spec's Scenario 1 input (a 1000 x 500 image,
fit by width). -/
theorem c1_fit_to_box_witness :
    (0:ℚ) < 1000 ∧ (0:ℚ) < 500 ∧
    ((layoutImage 1000 500).display_w = CONTENT_W ∧ CONTENT_W = 504 ∧
      (layoutImage 1000 500).display_h = CONTENT_W * (500/1000)) :=
  ⟨by norm_num, by norm_num,
   (c1_fit_to_box 1000 500 (by norm_num) (by norm_num)).1
     (by norm_num [CONTENT_H, CONTENT_W, PAGE_H, PAGE_W, MARGIN])⟩

/-- **C2.** For every image placement produced by the layout (any `W > 0`,
`H > 0`), the computed origin and display size satisfy
`x + display_w ≤ PAGE_W - MARGIN` and `y ≥ MARGIN`: the placed image never
overflows the content box. -/
theorem c2_no_overflow (w h : ℚ) (hw : 0 < w) (hh : 0 < h) :
    (layoutImage w h).x + (layoutImage w h).display_w ≤ PAGE_W - MARGIN ∧
    MARGIN ≤ (layoutImage w h).y := by
  have haspect : 0 < h / w := div_pos hh hw
  have key : (layoutImage w h).display_w ≤ CONTENT_W ∧
      (layoutImage w h).display_h ≤ CONTENT_H ∧
      (layoutImage w h).x = MARGIN + (CONTENT_W - (layoutImage w h).display_w) / 2 ∧
      (layoutImage w h).y = PAGE_H - MARGIN - (layoutImage w h).display_h := by
    by_cases hcond : CONTENT_W * (h / w) > CONTENT_H
    · simp only [layoutImage]
      rw [if_pos hcond]
      refine ⟨?_, le_refl _, rfl, rfl⟩
      show CONTENT_H / (h / w) ≤ CONTENT_W
      rw [div_le_iff₀ haspect]
      linarith [hcond]
    · simp only [layoutImage]
      rw [if_neg hcond]
      exact ⟨le_refl _, not_lt.mp hcond, rfl, rfl⟩
  obtain ⟨hdw, hdh, hx, hy⟩ := key
  constructor
  · rw [hx]
    have : CONTENT_W = PAGE_W - 2 * MARGIN := rfl
    linarith
  · rw [hy]
    have : CONTENT_H = PAGE_H - 2 * MARGIN := rfl
    linarith

/-- Witness for C2 at the spec's Scenario 2 input (a 100 x 1000 image). -/
theorem c2_no_overflow_witness :
    (0:ℚ) < 100 ∧ (0:ℚ) < 1000 ∧
    ((layoutImage 100 1000).x + (layoutImage 100 1000).display_w ≤ PAGE_W - MARGIN ∧
     MARGIN ≤ (layoutImage 100 1000).y) :=
  ⟨by norm_num, by norm_num, c2_no_overflow 100 1000 (by norm_num) (by norm_num)⟩

/-! ### Escaping lemmas -/

theorem isPrefixOf_append_right {p l r : List Char}
    (h : p.isPrefixOf l = true) : p.isPrefixOf (l ++ r) = true := by
  rw [ List.isPrefixOf_iff_prefix] at h ⊢
  exact h.trans (List.prefix_append l r)

theorem ampOk_append {l r : List Char}
    (hl : ampOk l = true) (hr : ampOk r = true) : ampOk (l ++ r) = true := by
  induction l with
  | nil => simpa using hr
  | cons c t ih =>
    simp only [ampOk, Bool.and_eq_true, Bool.or_eq_true] at hl ⊢
    obtain ⟨h1, h2⟩ := hl
    refine ⟨?_, ih h2⟩
    rcases h1 with h1 | (h1 | h1) | h1
    · exact Or.inl h1
    · exact Or.inr (Or.inl (Or.inl (isPrefixOf_append_right h1)))
    · exact Or.inr (Or.inl (Or.inr (isPrefixOf_append_right h1)))
    · exact Or.inr (Or.inr (isPrefixOf_append_right h1))

theorem escChar_ampOk (c : Char) : ampOk (escChar c) = true := by
  unfold escChar
  split_ifs with h1 h2 h3
  · decide
  · decide
  · decide
  · simp [ampOk, h1]

theorem ampOk_escapeL (l : List Char) : ampOk (escapeL l) = true := by
  induction l with
  | nil => rfl
  | cons c t ih => exact ampOk_append (escChar_ampOk c) ih

theorem escChar_noLtGt (c : Char) :
    (escChar c).all (fun c => c != '<' && c != '>') = true := by
  unfold escChar
  split_ifs with h1 h2 h3
  · decide
  · decide
  · decide
  · simp [h2, h3]

theorem noLtGt_escapeL (l : List Char) : noLtGt (escapeL l) = true := by
  induction l with
  | nil => rfl
  | cons c t ih =>
    show ((escChar c ++ escapeL t).all _) = true
    rw [List.all_append]
    exact Bool.and_eq_true_iff.mpr ⟨escChar_noLtGt c, ih⟩

theorem ampOk_of_ampFree {l : List Char}
    (h : l.all (fun c => c != '&') = true) : ampOk l = true := by
  induction l with
  | nil => rfl
  | cons c t ih =>
    simp only [List.all_cons, Bool.and_eq_true] at h
    simp only [ampOk, Bool.and_eq_true, Bool.or_eq_true]
    exact ⟨Or.inl h.1, ih h.2⟩

theorem lookup_ampFree (attrs : List (String × String)) (key : String)
    (h : attrs.all (fun p => p.2.data.all (fun c => c != '&')) = true) :
    ((attrs.lookup key).getD "").data.all (fun c => c != '&') = true := by
  induction attrs with
  | nil => rfl
  | cons p rest ih =>
    simp only [List.all_cons, Bool.and_eq_true] at h
    simp only [List.lookup]
    cases hk : key == p.1
    · simpa using ih h.2
    · simpa using h.1

theorem escape_data (s : String) : (escape s).data = escapeL s.data := rfl

mutual

theorem childPart_ampOk (n : Node) (h : attrsAmpFree n = true) :
    ampOk (childPart n).data = true :=
  match n with
  | .text s => ampOk_escapeL s.data
  | .tag name attrs cs => by
    have hattrs : attrs.all (fun p => p.2.data.all (fun c => c != '&')) = true ∧
        attrsAmpFreeList cs = true := by
      simpa [attrsAmpFree, Bool.and_eq_true] using h
    unfold childPart
    split_ifs with h1 h2 h3 h4 h5
    · rw [String.data_append, String.data_append, escape_data]
      refine ampOk_append (ampOk_append ?_ (ampOk_escapeL _)) ?_ <;> decide
    · rw [String.data_append, String.data_append, escape_data]
      refine ampOk_append (ampOk_append ?_ (ampOk_escapeL _)) ?_ <;> decide
    · rw [String.data_append, String.data_append, escape_data]
      refine ampOk_append (ampOk_append ?_ (ampOk_escapeL _)) ?_ <;> decide
    · rw [String.data_append, String.data_append, String.data_append,
        String.data_append, escape_data]
      refine ampOk_append (ampOk_append (ampOk_append (ampOk_append ?_ ?_) ?_)
        (ampOk_escapeL _)) ?_
      · decide
      · exact ampOk_of_ampFree (lookup_ampFree attrs "href" hattrs.1)
      · decide
      · decide
    · decide
    · exact inlineParts_ampOk cs hattrs.2

theorem inlineParts_ampOk (l : List Node) (h : attrsAmpFreeList l = true) :
    ampOk (inlineParts l).data = true :=
  match l with
  | [] => rfl
  | c :: rest => by
    have hc : attrsAmpFree c = true ∧ attrsAmpFreeList rest = true := by
      simpa [attrsAmpFreeList, Bool.and_eq_true] using h
    show ampOk (childPart c ++ inlineParts rest).data = true
    rw [String.data_append]
    exact ampOk_append (childPart_ampOk c hc.1) (inlineParts_ampOk rest hc.2)

end

/-- **C5.** For every inline content node whose attribute values are free of
raw ampersands, the composed styled run is amp-escaped: every `&` in
`inline_text n` is immediately followed by `amp;`, `lt;` or `gt;` (so a
markup-significant `&` from source text never appears raw), and the escape
pass applied to any source text yields output with no raw `<` or `>` at all
and with every `&` escaped — escaping happens before span-wrapping. -/
theorem c5_escape_before_wrap (n : Node) (h : attrsAmpFree n = true) :
    ampOk (inline_text n).data = true ∧
    ∀ s : String, noLtGt (escapeL s.data) = true ∧
      ampOk (escapeL s.data) = true := by
  constructor
  · cases n with
    | text s => exact ampOk_escapeL s.data
    | tag name attrs cs =>
      have hcs : attrsAmpFreeList cs = true := by
        simp only [attrsAmpFree, Bool.and_eq_true] at h
        exact h.2
      exact inlineParts_ampOk cs hcs
  · intro s
    exact ⟨noLtGt_escapeL s.data, ampOk_escapeL s.data⟩

/-- Witness for C5: a paragraph with `&`, `<`, `>` in its source text (plain
and inside a bold span). -/
theorem c5_escape_before_wrap_witness :
    attrsAmpFree (.tag "p" [] [.text "a&b<c", .tag "b" [] [.text "x>y"]])
      = true ∧
    ampOk (inline_text
      (.tag "p" [] [.text "a&b<c", .tag "b" [] [.text "x>y"]])).data = true :=
  ⟨by decide, (c5_escape_before_wrap
    (.tag "p" [] [.text "a&b<c", .tag "b" [] [.text "x>y"]]) (by decide)).1⟩

/-- **C9.** (implicit) The composer embeds the `href` attribute value
verbatim inside the link span: a link target containing `"` and `&` puts raw
markup-significant characters into the composed styled run (`ampOk` fails on
the run), unlike text content, whose escape (`T&T` here, and the href string
itself had it been treated as text) is always amp-escaped. -/
theorem c9_href_verbatim :
    inline_text (.tag "p" [] [.tag "a" [("href", "x\"&y")] [.text "T&T"]])
      = "<link href=\"x\"&y\" color=\"blue\">T&amp;T</link>" ∧
    ampOk (inline_text
      (.tag "p" [] [.tag "a" [("href", "x\"&y")] [.text "T&T"]])).data
      = false ∧
    ampOk (escapeL "x\"&y".data) = true := by
  refine ⟨by decide, by decide, by decide⟩

/-- **C10.** (implicit) For every bold, italic, inline-code or hyperlink
node, the composer wraps the node's flattened plain text (all descendant
text concatenated, escaped) in that single span: two such nodes with the
same tag, attributes and flattened text compose identically, so nested
inline tags inside them lose their own styling while their text content is
preserved; recursive composition (`inline_text`) applies only to other
(unknown) inline tags. -/
theorem c10_flattened_spans :
    (∀ t a cs cs',
      (t = "strong" ∨ t = "b" ∨ t = "em" ∨ t = "i" ∨ t = "code" ∨ t = "a") →
      getTextList cs = getTextList cs' →
      childPart (.tag t a cs) = childPart (.tag t a cs')) ∧
    (∀ t a cs, (t = "strong" ∨ t = "b") →
      childPart (.tag t a cs) = "<b>" ++ escape (getTextList cs) ++ "</b>") ∧
    (∀ t a cs,
      ¬(t = "strong" ∨ t = "b" ∨ t = "em" ∨ t = "i" ∨ t = "code" ∨ t = "a"
        ∨ t = "br") →
      childPart (.tag t a cs) = inline_text (.tag t a cs)) := by
  refine ⟨?_, ?_, ?_⟩
  · intro t a cs cs' ht hget
    rcases ht with rfl | rfl | rfl | rfl | rfl | rfl <;>
      simp [childPart, hget]
  · intro t a cs ht
    rcases ht with rfl | rfl <;> simp [childPart]
  · intro t a cs ht
    push_neg at ht
    obtain ⟨h1, h2, h3, h4, h5, h6, h7⟩ := ht
    show childPart (.tag t a cs) = inlineParts cs
    unfold childPart
    rw [if_neg (by simp [h1, h2]), if_neg (by simp [h3, h4]), if_neg h5,
      if_neg h6, if_neg h7]

/-- Witness for C10: a bold node containing an italic wrapper composes the
same as a bold node containing the bare text; an unknown `span` tag is
composed recursively. -/
theorem c10_flattened_spans_witness :
    (getTextList [Node.tag "em" [] [Node.text "x"]]
      = getTextList [Node.text "x"]) ∧
    childPart (.tag "b" [] [Node.tag "em" [] [Node.text "x"]])
      = childPart (.tag "b" [] [Node.text "x"]) ∧
    childPart (.tag "span" [] [Node.text "x"])
      = inline_text (.tag "span" [] [Node.text "x"]) :=
  ⟨by decide,
   c10_flattened_spans.1 "b" [] [Node.tag "em" [] [Node.text "x"]]
     [Node.text "x"] (Or.inr (Or.inl rfl)) (by decide),
   c10_flattened_spans.2.2 "span" [] [Node.text "x"] (by decide)⟩

/-! ### Locality of the story accumulator

`_node_to_story` only ever appends to the `story` list it is handed; the
blocks it emits do not depend on what the list already contains.  -/

theorem quoteLoop_append (s1 s2 : List Block) (l : List Node) :
    quoteLoop (s1 ++ s2) l = s1 ++ quoteLoop s2 l := by
  induction l generalizing s2 with
  | nil => rfl
  | cons c rest ih =>
    simp only [quoteLoop]
    by_cases hc : pyStrip (inline_text c) ≠ ""
    · rw [if_pos hc, if_pos hc, List.append_assoc]
      exact ih _
    · rw [if_neg hc, if_neg hc]
      exact ih s2

theorem tableLoop_append (s1 s2 : List Block) (l : List Node) :
    tableLoop (s1 ++ s2) l = s1 ++ tableLoop s2 l := by
  induction l generalizing s2 with
  | nil => rfl
  | cons row rest ih =>
    simp only [tableLoop]
    rw [List.append_assoc]
    exact ih _

set_option maxHeartbeats 1600000 in
mutual

theorem nodeToStory_append (parent : Option String) (depth : ℕ)
    (s1 s2 : List Block) (n : Node) :
    nodeToStory parent depth (s1 ++ s2) n = s1 ++ nodeToStory parent depth s2 n :=
  match n with
  | .text _ => rfl
  | .tag t attrs cs => by
    simp only [nodeToStory]
    split_ifs
    · exact List.append_assoc s1 s2 _
    · exact List.append_assoc s1 s2 _
    · rfl
    · exact List.append_assoc s1 s2 _
    · exact listLoop_append t depth 0 s1 s2 cs
    · exact List.append_assoc s1 s2 _
    · exact List.append_assoc s1 s2 _
    · exact List.append_assoc s1 s2 _
    · exact quoteLoop_append s1 s2 cs
    · exact tableLoop_append s1 s2 (findAllIn ["tr"] cs)
    · exact childLoop_append t depth s1 s2 cs

theorem listLoop_append (t : String) (depth i : ℕ) (s1 s2 : List Block)
    (l : List Node) :
    listLoop t depth i (s1 ++ s2) l = s1 ++ listLoop t depth i s2 l :=
  match l with
  | [] => rfl
  | .text _ :: rest => listLoop_append t depth (i + 1) s1 s2 rest
  | .tag name nattrs ccs :: rest => by
    simp only [listLoop]
    by_cases hli : name = "li"
    · rw [if_pos hli, if_pos hli, List.append_assoc]
      rw [nestedLoop_append depth s1]
      exact listLoop_append t depth (i + 1) s1 _ rest
    · rw [if_neg hli, if_neg hli]
      exact listLoop_append t depth (i + 1) s1 s2 rest

theorem nestedLoop_append (depth : ℕ) (s1 s2 : List Block) (l : List Node) :
    nestedLoop depth (s1 ++ s2) l = s1 ++ nestedLoop depth s2 l :=
  match l with
  | [] => rfl
  | .text _ :: rest => nestedLoop_append depth s1 s2 rest
  | .tag name nattrs scs :: rest => by
    simp only [nestedLoop]
    by_cases hn : name = "ul" ∨ name = "ol"
    · rw [if_pos hn, if_pos hn, nodeToStory_append (some "li") (depth + 1) s1]
      exact nestedLoop_append depth s1 _ rest
    · rw [if_neg hn, if_neg hn]
      exact nestedLoop_append depth s1 s2 rest

theorem childLoop_append (t : String) (depth : ℕ) (s1 s2 : List Block)
    (l : List Node) :
    childLoop t depth (s1 ++ s2) l = s1 ++ childLoop t depth s2 l :=
  match l with
  | [] => rfl
  | c :: rest => by
    simp only [childLoop]
    rw [nodeToStory_append (some t) depth s1]
    exact childLoop_append t depth s1 _ rest

end

theorem nodeToStory_eq_append (parent : Option String) (depth : ℕ)
    (story : List Block) (n : Node) :
    nodeToStory parent depth story n = story ++ nodeToStory parent depth [] n := by
  have := nodeToStory_append parent depth story [] n
  simpa using this

theorem listLoop_eq_append (t : String) (depth i : ℕ) (story : List Block)
    (l : List Node) :
    listLoop t depth i story l = story ++ listLoop t depth i [] l := by
  have := listLoop_append t depth i story [] l
  simpa using this

theorem nestedLoop_eq_append (depth : ℕ) (story : List Block) (l : List Node) :
    nestedLoop depth story l = story ++ nestedLoop depth [] l := by
  have := nestedLoop_append depth story [] l
  simpa using this

/-- Each `li` child of a list node at position `i` among *all* direct
children emits a list-item block whose marker is `•` for `ul` and the
running enumeration index (starting at `j`) followed by a period for any
other list tag. -/
theorem listLoop_mem (t : String) (depth : ℕ) (cs : List Node) (j i : ℕ)
    (story : List Block) (nattrs : List (String × String)) (ics : List Node)
    (hget : cs[i]? = some (.tag "li" nattrs ics)) :
    Block.paragraph "li"
      ((if t = "ul" then "•" else toString (j + i) ++ ".") ++ "  "
        ++ inline_text (.tag "li" nattrs ics))
      ∈ listLoop t depth j story cs := by
  induction cs generalizing i j story with
  | nil => simp at hget
  | cons c rest ih =>
    cases i with
    | zero =>
      have hc : c = .tag "li" nattrs ics := by simpa using hget
      subst hc
      simp only [listLoop, if_pos rfl, Nat.add_zero]
      rw [listLoop_eq_append, nestedLoop_eq_append]
      simp [List.mem_append]
    | succ i' =>
      have hget' : rest[i']? = some (.tag "li" nattrs ics) := by simpa using hget
      have harith : j + (i' + 1) = (j + 1) + i' := by omega
      rw [harith]
      cases c with
      | text s =>
        simp only [listLoop]
        exact ih (j + 1) i' story hget'
      | tag name nattrs2 ccs =>
        by_cases hli : name = "li"
        · subst hli
          simp only [listLoop, if_pos rfl]
          exact ih (j + 1) i' _ hget'
        · simp only [listLoop, if_neg hli]
          exact ih (j + 1) i' story hget'

/-- **C4 (amended).** For every list node, the ordinal text of a direct
list-item child is its 0-based position among *all* direct children of the
list (text nodes included), followed by a period — not its position among
the list-item children only — and every direct list-item child of an
unordered list gets the bullet marker `•`. -/
theorem c4_list_item_markers (parent : Option String) (depth : ℕ)
    (a : List (String × String)) (cs : List Node) (i : ℕ)
    (nattrs : List (String × String)) (ics : List Node)
    (hget : cs[i]? = some (.tag "li" nattrs ics)) :
    Block.paragraph "li"
        ((toString i ++ ".") ++ "  " ++ inline_text (.tag "li" nattrs ics))
      ∈ nodeToStory parent depth [] (.tag "ol" a cs) ∧
    Block.paragraph "li" ("•" ++ "  " ++ inline_text (.tag "li" nattrs ics))
      ∈ nodeToStory parent depth [] (.tag "ul" a cs) := by
  constructor
  · have h := listLoop_mem "ol" depth cs 0 i [] nattrs ics hget
    rw [if_neg (by decide : ¬("ol" = "ul")), Nat.zero_add] at h
    have hun : nodeToStory parent depth [] (.tag "ol" a cs)
        = listLoop "ol" depth 0 [] cs := by
      simp +decide [nodeToStory]
    rw [hun]
    exact h
  · have h := listLoop_mem "ul" depth cs 0 i [] nattrs ics hget
    rw [if_pos (rfl : "ul" = "ul")] at h
    have hun : nodeToStory parent depth [] (.tag "ul" a cs)
        = listLoop "ul" depth 0 [] cs := by
      simp +decide [nodeToStory]
    rw [hun]
    exact h

/-- Witness for the amended C4: the sole `li` of an `ol` sits at child
position 1 (after a whitespace text node) and is numbered `1.`. -/
theorem c4_list_item_markers_witness :
    ([Node.text "\n", Node.tag "li" [] [Node.text "a"]][1]?
      = some (Node.tag "li" [] [Node.text "a"])) ∧
    Block.paragraph "li"
        ((toString 1 ++ ".") ++ "  " ++ inline_text (.tag "li" [] [Node.text "a"]))
      ∈ nodeToStory none 0 []
          (.tag "ol" [] [Node.text "\n", Node.tag "li" [] [Node.text "a"]]) :=
  ⟨rfl,
   (c4_list_item_markers none 0 [] [Node.text "\n", Node.tag "li" [] [Node.text "a"]]
     1 [] [Node.text "a"] rfl).1⟩

/-- **C4 (counterexample).** The claim as stated — the ordinal is the item's
0-based position among the list's *list-item* children, so the first item of
every ordered list is numbered `0.` — is false: in an `ol` whose first child
is a text node (as the Markdown parser's newline-separated output has), the
sole `li` (position 0 among the list-item children) is numbered `1.`. -/
theorem c4_zero_based_counterexample :
    nodeToStory none 0 []
        (.tag "ol" [] [Node.text "\n", Node.tag "li" [] [Node.text "a"]])
      = [Block.paragraph "li" "1.  a"] ∧
    Block.paragraph "li" "0.  a"
      ∉ nodeToStory none 0 []
          (.tag "ol" [] [Node.text "\n", Node.tag "li" [] [Node.text "a"]]) := by
  exact ⟨by decide, by decide⟩

/-- **C7.** For every heading node of level 1-6 the translator emits exactly
one heading block: levels 1-4 use their own style, levels 5 and 6 fall back
to the level-4 style (no error). -/
theorem c7_heading_fallback (parent : Option String) (depth : ℕ)
    (story : List Block) (t : String) (attrs : List (String × String))
    (cs : List Node)
    (ht : t = "h1" ∨ t = "h2" ∨ t = "h3" ∨ t = "h4" ∨ t = "h5" ∨ t = "h6") :
    nodeToStory parent depth story (.tag t attrs cs)
      = story ++ [.paragraph (if t = "h5" ∨ t = "h6" then "h4" else t)
          (inline_text (.tag t attrs cs))] := by
  rcases ht with rfl | rfl | rfl | rfl | rfl | rfl <;>
    simp +decide [nodeToStory, headingStyle, stylesKeys]

/-- Witness for C7 at a level-5 heading, which falls back to the `h4`
style. -/
theorem c7_heading_fallback_witness :
    ("h5" = "h1" ∨ "h5" = "h2" ∨ "h5" = "h3" ∨ "h5" = "h4" ∨ "h5" = "h5"
      ∨ "h5" = "h6") ∧
    nodeToStory none 0 [] (.tag "h5" [] [Node.text "T"])
      = [] ++ [.paragraph (if "h5" = "h5" ∨ "h5" = "h6" then "h4" else "h5")
          (inline_text (.tag "h5" [] [Node.text "T"]))] :=
  ⟨by decide,
   c7_heading_fallback none 0 [] "h5" [] [Node.text "T"] (by decide)⟩

/-- **C8.** Translation is deterministic and repeatable: translating the
same tree twice, each time from a fresh empty output sequence, yields
identical block sequences — and more strongly, the accumulator is append
only, so whatever the output sequence already contains never affects the
blocks a translation run emits. -/
theorem c8_translate_twice (parent : Option String) (depth : ℕ) (n : Node)
    (story : List Block) :
    nodeToStory parent depth [] n = nodeToStory parent depth [] n ∧
    nodeToStory parent depth story n = story ++ nodeToStory parent depth [] n :=
  ⟨rfl, nodeToStory_eq_append parent depth story n⟩

/-- **C3.** The final merged document's page order equals the README pages in
document order followed by the image pages in input order: when a README
source exists its page set is placed first, the image page set (when
non-empty) second, and the concatenation preserves each set's internal
order. -/
theorem c3_merge_order {α : Type} (readmeExists : Bool) (readmePages : List α)
    (imagesPdf : Option (List α)) :
    mainMerged readmeExists readmePages imagesPdf =
      (if readmeExists then readmePages else []) ++ imagesPdf.getD [] := by
  cases readmeExists <;> cases imagesPdf <;>
    simp [mainMerged, Option.getD]

/-- **C6.** A zero-width or zero-height image is skipped and processing
continues with the remaining images: the pages produced are exactly one page
per non-degenerate image, in order. If zero images were placed,
`images_to_pdf` returns the empty result, and the caller omits an empty image
part from the final merge. -/
theorem c6_degenerate_skipped :
    (∀ dims : List (ℕ × ℕ),
      imagePages dims =
        (dims.filter (fun d => ¬(d.1 = 0 ∨ d.2 = 0))).map
          (fun d => layoutImage (d.1 : ℚ) (d.2 : ℚ))) ∧
    (∀ dims : List (ℕ × ℕ), imagesToPdf dims = none ↔ imagePages dims = []) ∧
    (∀ (α : Type) (readmeExists : Bool) (readmePages : List α),
      mainMerged readmeExists readmePages none =
        if readmeExists then readmePages else []) := by
  refine ⟨?_, ?_, ?_⟩
  · intro dims
    induction dims with
    | nil => rfl
    | cons d rest ih =>
      obtain ⟨w, h⟩ := d
      have hstep : imagePages ((w, h) :: rest)
          = if w = 0 ∨ h = 0 then imagePages rest
            else layoutImage (w : ℚ) (h : ℚ) :: imagePages rest := rfl
      by_cases hd : w = 0 ∨ h = 0
      · rw [hstep, if_pos hd, ih, List.filter_cons]
        rcases hd with h0 | h0 <;> simp [h0]
      · rw [hstep, if_neg hd, ih, List.filter_cons]
        push_neg at hd
        simp [hd.1, hd.2]
  · intro dims
    simp only [imagesToPdf]
    by_cases hp : imagePages dims = [] <;> simp [hp]
  · intro α readmeExists readmePages
    cases readmeExists <;> simp [mainMerged]

end Jpg2pdf
